import Mathlib

/-!
Shallow embedding of the PowerDNS libdns provider's reconciliation engine.

The embedding models the Go package: `libdns.Record` (caller-supplied desired
records), `zones.ResourceRecordSet` / `zones.Record` / `zones.Zone` (the zone
snapshot and mutation descriptors), and the planner functions `mergeRRecs`,
`cullRRecs`, `removeRecords`, `convertHash`, `key`, `makeLDRecHash`,
`shortZone`, and the pure part of `GetRecords`.

Go `time.Duration` is modelled as an integer count of nanoseconds; the
conversion `int(d.Seconds())` is modelled as integer division by 10^9, which
agrees with Go for the non-negative in-range durations exercised here.
Go strings are Lean `String`s; Go string equality is Lean `String` equality.
Go maps keyed by `string` are modelled as association lists in insertion
order; insertion order is one admissible Go map iteration order.
-/

namespace PdnsLibdns

/-- One desired DNS record as supplied by a caller (`libdns.Record`):
fields ID, Type, Name, Value, TTL, Priority. TTL is a duration in
nanoseconds. -/
structure LDRecord where
  id : String
  type : String
  name : String
  value : String
  ttl : Int
  priority : Int
deriving DecidableEq, Repr, Inhabited

/-- One value of a record set (`zones.Record`); only its Content field is
ever read or written by this package. -/
structure Record where
  content : String
deriving DecidableEq, Repr, Inhabited

/-- `zones.ChangeTypeReplace`. -/
def ChangeTypeReplace : String := "REPLACE"

/-- `zones.ChangeTypeDelete`. -/
def ChangeTypeDelete : String := "DELETE"

/-- A record set of the zone, also used as a mutation descriptor
(`zones.ResourceRecordSet`). Comments are opaque, round-tripped tokens.
An unset ChangeType is the Go zero value `""`. -/
structure RRSet where
  name : String
  type : String
  ttl : Int
  changeType : String
  comments : List String
  records : List Record
deriving DecidableEq, Repr, Inhabited

/-- A zone snapshot (`zones.Zone`): identifier plus record sets. -/
structure Zone where
  id : String
  resourceRecordSets : List RRSet
deriving DecidableEq, Repr, Inhabited

/-- `key(Name, Type string) string { return Name + ":" + Type }`. -/
def key (name ty : String) : String := name ++ ":" ++ ty

/-- The grouping key of a record set or descriptor. -/
def skey (t : RRSet) : String := key t.name t.type

/-- The Go `map[string][]libdns.Record`, as an association list in insertion
order. -/
abbrev LDHash := List (String × List LDRecord)

/-- Map lookup `inHash[k]` (`ok` iff the result is `some`). -/
def hashFind (m : LDHash) (k : String) : Option (List LDRecord) :=
  match m with
  | [] => none
  | (k2, v) :: rest => if k2 = k then some v else hashFind rest k

/-- `inHash[k] = append(inHash[k], r)`: append to the existing bucket, or
create a fresh one-element bucket for an absent key. -/
def hashInsertAppend (m : LDHash) (k : String) (r : LDRecord) : LDHash :=
  match m with
  | [] => [(k, [r])]
  | (k2, v) :: rest =>
    if k2 = k then (k2, v ++ [r]) :: rest else (k2, v) :: hashInsertAppend rest k r

/-- `delete(inHash, k)`. -/
def hashErase (m : LDHash) (k : String) : LDHash :=
  match m with
  | [] => []
  | (k2, v) :: rest =>
    if k2 = k then hashErase rest k else (k2, v) :: hashErase rest k

/-- The keys of the hash. -/
def hashKeys (m : LDHash) : List String := m.map Prod.fst

/-- `makeLDRecHash`: group records by `key(Name, Type)`, preserving arrival
order inside each bucket. -/
def makeLDRecHash (records : List LDRecord) : LDHash :=
  records.foldl (fun inHash r => hashInsertAppend inHash (key r.name r.type) r) []

/-- `int(d.Seconds())` for a nanosecond duration `d` (exact for the
non-negative in-range durations used by the claims). -/
def durSeconds (d : Int) : Int := d / 1000000000

/-- `time.Second * time.Duration(ttl)` for an integer seconds value. -/
def secondsToDuration (ttl : Int) : Int := 1000000000 * ttl

/-- Go `make([]zones.Record, n)`: a slice of `n` zero-value records. -/
def goMake (n : Nat) : List Record := List.replicate n { content := "" }

/-- Go `copy(dst, src)` as a value: the first `min (len dst) (len src)`
cells come from `src`, the rest keep `dst`'s contents. -/
def goCopy (dst src : List Record) : List Record :=
  src.take (min dst.length src.length) ++ dst.drop (min dst.length src.length)

/-- The loop body of `convertHash`: skip an empty bucket, otherwise append
one descriptor built from the bucket. -/
def convertStep (rrsets : List RRSet) (kv : String × List LDRecord) : List RRSet :=
  match kv.2 with
  | [] => rrsets
  | r0 :: _ =>
    rrsets ++
      [{ name := r0.name, type := r0.type, ttl := durSeconds r0.ttl,
         changeType := ChangeTypeReplace, comments := [],
         records := kv.2.map (fun rec => { content := rec.value }) }]

/-- `convertHash`: one REPLACE descriptor per non-empty bucket, metadata from
the bucket's first record, comments left at their zero value, values in
bucket order with no deduplication. -/
def convertHash (inHash : LDHash) : List RRSet :=
  inHash.foldl convertStep []

/-- The descriptors one bucket contributes to `convertHash`'s output: none
for an empty bucket, one otherwise. -/
def convGroup (kv : String × List LDRecord) : List RRSet :=
  match kv.2 with
  | [] => []
  | r0 :: _ =>
    [{ name := r0.name, type := r0.type, ttl := durSeconds r0.ttl,
       changeType := ChangeTypeReplace, comments := [],
       records := kv.2.map (fun rec => { content := rec.value }) }]

/-- One iteration of `mergeRRecs`'s loop over the snapshot's record sets,
threading the accumulated descriptor list and the (drained) input hash.
`rr.Records = make([]zones.Record, len(rr.Records))` sizes the new value
list by the descriptor's own (still nil) Records field, so the subsequent
`copy(rr.Records, t.Records)` copies zero elements. -/
def mergeStep (acc : List RRSet × LDHash) (t : RRSet) : List RRSet × LDHash :=
  let k := key t.name t.type
  match hashFind acc.2 k with
  | some (r0 :: restRecs) =>
    let recs := r0 :: restRecs
    let rr0 : RRSet :=
      { name := t.name, type := t.type, ttl := durSeconds r0.ttl,
        changeType := ChangeTypeReplace, comments := t.comments, records := [] }
    let rrRecords := goCopy (goMake rr0.records.length) t.records
    let dupes := t.records.map (fun prec => prec.content)
    let final :=
      recs.foldl
        (fun (st : List Record × List String) rec =>
          if rec.value ∈ st.2 then st
          else (st.1 ++ [{ content := rec.value }], st.2 ++ [rec.value]))
        (rrRecords, dupes)
    (acc.1 ++ [{ rr0 with records := final.1 }], hashErase acc.2 k)
  | _ => acc

/-- `mergeRRecs`: merge existing record sets with matching input buckets,
then convert the remaining buckets into straight creates. (The Go function
also returns an error value that is always nil; it is omitted here.) -/
def mergeRRecs (fullZone : Zone) (records : List LDRecord) : List RRSet :=
  let inHash := makeLDRecHash records
  let res := fullZone.resourceRecordSets.foldl mergeStep ([], inHash)
  res.1 ++ convertHash res.2

/-- The body of `deleteItem` in `removeRecords`: scan the working view (the
first `l` cells of the backing array `arr`) from the top index down; at a
match at index `j`, perform `copy(recs[j:], recs[:j+1])` on the array
(memmove semantics) and shorten the view by one. The fuel argument is the
next index plus one. -/
def deleteItemAux (item : String) : List Record → Nat → Nat → List Record × Nat
  | arr, l, 0 => (arr, l)
  | arr, l, j + 1 =>
    if (arr.getD j { content := "" }).content = item then
      let m := min (l - j) (j + 1)
      deleteItemAux item (arr.take j ++ arr.take m ++ arr.drop (j + m)) (l - 1) j
    else
      deleteItemAux item arr l j

/-- `deleteItem(item)`: one full downward scan over the current view. -/
def deleteItem (item : String) (arr : List Record) (l : Nat) : List Record × Nat :=
  deleteItemAux item arr l l

/-- The state reached by `removeRecords`' loop: the backing array shared
with the zone snapshot, plus the current view length. -/
def removeRecordsState (rRSet : RRSet) (culls : List LDRecord) : List Record × Nat :=
  culls.foldl (fun st c => deleteItem c.value st.1 st.2) (rRSet.records, rRSet.records.length)

/-- `removeRecords`: the returned record set carries the final view (the
first `l` cells of the backing array). -/
def removeRecords (rRSet : RRSet) (culls : List LDRecord) : RRSet :=
  let st := removeRecordsState rRSet culls
  { rRSet with records := st.1.take st.2 }

/-- The loop body of `cullRRecs` for one snapshot record set. -/
def cullStep (inHash : LDHash) (rRSets : List RRSet) (t : RRSet) : List RRSet :=
  match hashFind inHash (key t.name t.type) with
  | some (r0 :: restRecs) =>
    let rr := removeRecords t (r0 :: restRecs)
    let rRec : RRSet :=
      if rr.records.length = 0 then
        { name := t.name, type := t.type, ttl := 0,
          changeType := ChangeTypeDelete, comments := [], records := [] }
      else
        { name := t.name, type := t.type, ttl := t.ttl,
          changeType := ChangeTypeReplace, comments := t.comments, records := [] }
    rRSets ++ [rRec]
  | _ => rRSets

/-- `cullRRecs`: for each existing record set with a non-empty bucket of
records to remove, emit a DELETE descriptor when no value survives and a
REPLACE descriptor otherwise. The descriptor's Records field is never
assigned in the Go code, so it stays at its zero value (nil), as do TTL and
Comments on the DELETE branch. -/
def cullRRecs (fullZone : Zone) (records : List LDRecord) : List RRSet :=
  let inHash := makeLDRecHash records
  fullZone.resourceRecordSets.foldl (cullStep inHash) []

/-- The contents of one snapshot record set's backing array after
`cullRRecs` ran: `removeRecords` receives the record slice by reference, so
its in-place writes land in the array the zone still holds (the zone's own
slice keeps its original length). Unmatched sets are untouched. -/
def cullSetAfter (inHash : LDHash) (t : RRSet) : RRSet :=
  match hashFind inHash (key t.name t.type) with
  | some (r0 :: restRecs) => { t with records := (removeRecordsState t (r0 :: restRecs)).1 }
  | _ => t

/-- The zone snapshot as seen by the caller after `cullRRecs` ran. -/
def cullZoneAfter (fullZone : Zone) (records : List LDRecord) : Zone :=
  { fullZone with
    resourceRecordSets :=
      fullZone.resourceRecordSets.map (cullSetAfter (makeLDRecHash records)) }

/-- `shortZone`, as a function of the `ListZone` result: an error unless
exactly one zone matched, else the first (unique) match. -/
def shortZone (pzones : List Zone) : Except String Zone :=
  match pzones with
  | [z] => Except.ok z
  | _ => Except.error "zone not found"

/-- The pure part of `Provider.GetRecords`: flatten the snapshot's record
sets into `libdns.Record`s, stamping each with the zone's ID, the record
set's name/type, the value's content, the set TTL converted to a duration,
and Priority 0. -/
def getRecords (prec : Zone) : List LDRecord :=
  prec.resourceRecordSets.foldl
    (fun recs rec =>
      recs ++ rec.records.map
        (fun v =>
          { id := prec.id, type := rec.type, name := rec.name, value := v.content,
            ttl := secondsToDuration rec.ttl, priority := 0 }))
    []

/-- Modelled from the spec: applying a mutation descriptor list via the
Zone Store (`ApplyMutations`, not part of this repository). Per §3 and §6,
a REPLACE descriptor makes its full value list (with its TTL and comments)
the record set that exists afterwards for that name and type, creating the
set if absent, and a DELETE descriptor removes the set. Descriptors apply
one at a time, in order. -/
def applyOne (sets : List RRSet) (d : RRSet) : List RRSet :=
  if d.changeType = ChangeTypeDelete then
    sets.filter (fun t => !(t.name == d.name && t.type == d.type))
  else if sets.any (fun t => t.name == d.name && t.type == d.type) then
    sets.map (fun t =>
      if t.name = d.name ∧ t.type = d.type then
        { t with ttl := d.ttl, comments := d.comments, records := d.records }
      else t)
  else
    sets ++ [{ name := d.name, type := d.type, ttl := d.ttl, changeType := "",
               comments := d.comments, records := d.records }]

/-- Modelled from the spec: the zone snapshot produced by applying a
descriptor list in order (§6 `ApplyMutations`). -/
def applyDescriptors (z : Zone) (ds : List RRSet) : Zone :=
  { z with resourceRecordSets := ds.foldl applyOne z.resourceRecordSets }

/-- Two desired records land in the same bucket of a grouping. -/
abbrev sameBucket (h : LDHash) (r1 r2 : LDRecord) : Prop :=
  ∃ kv ∈ h, r1 ∈ kv.2 ∧ r2 ∈ kv.2

/-- Spec §8 Example 1's snapshot: one record set `("www","A")` with values
`["1.1.1.1"]` and TTL 300. -/
def exZone1 : Zone := ⟨"zid1", [⟨"www", "A", 300, "", [], [⟨"1.1.1.1"⟩]⟩]⟩

/-- Spec §8 Example 1's desired records: one record `("www","A","2.2.2.2")`
with TTL 300 seconds. -/
def exRecs1 : List LDRecord := [⟨"", "A", "www", "2.2.2.2", 300000000000, 0⟩]

/-- Spec §8 Example 2's desired records: the duplicate value `"1.1.1.1"`. -/
def exRecsDup : List LDRecord := [⟨"", "A", "www", "1.1.1.1", 300000000000, 0⟩]

/-- Spec §8 Example 4's snapshot: record set `("mail","MX")` with values
`["a","b"]`, TTL 3600 and one comment. -/
def exZone4 : Zone := ⟨"zid4", [⟨"mail", "MX", 3600, "", ["note"], [⟨"a"⟩, ⟨"b"⟩]⟩]⟩

/-- Spec §8 Example 4's records to remove: the value `"a"`. -/
def exCullA : List LDRecord := [⟨"", "MX", "mail", "a", 0, 0⟩]

/-- Records to remove targeting value `"b"` of `exZone4`. -/
def exCullB : List LDRecord := [⟨"", "MX", "mail", "b", 0, 0⟩]

/-- A record set with values `["x","a","y"]`. -/
def exSet3 : RRSet := ⟨"t", "TXT", 60, "", [], [⟨"x"⟩, ⟨"a"⟩, ⟨"y"⟩]⟩

/-- One removal request for value `"a"` of `exSet3`. -/
def exCulls3 : List LDRecord := [⟨"", "TXT", "t", "a", 0, 0⟩]

/-- Spec §8 Example 5's desired records: `("new","TXT","hello",60)`, a group
matching no existing record set. -/
def exRecs6 : List LDRecord := [⟨"", "TXT", "new", "hello", 60000000000, 0⟩]

/-!
### Theorems
-/

/-- Folding an append-step over a list flattens the per-element pieces. -/
theorem foldl_append_flatten {α β : Type} (f : α → List β) :
    ∀ (l : List α) (acc : List β),
      l.foldl (fun r x => r ++ f x) acc = acc ++ (l.map f).flatten := by
  intro l
  induction l with
  | nil => intro acc; simp
  | cons x xs ih =>
    intro acc
    simp only [List.foldl_cons, List.map_cons, List.flatten_cons]
    rw [ih]
    simp

/-- `getRecords` flattens the snapshot's record sets. -/
theorem getRecords_eq_flatten (prec : Zone) :
    getRecords prec =
      (prec.resourceRecordSets.map (fun rec =>
        rec.records.map (fun v =>
          ({ id := prec.id, type := rec.type, name := rec.name, value := v.content,
             ttl := secondsToDuration rec.ttl, priority := 0 } : LDRecord)))).flatten := by
  unfold getRecords
  rw [foldl_append_flatten]
  simp

/-- One scan of `deleteItemAux` keeps the backing array's length and keeps
the view length bounded. -/
theorem deleteItemAux_length (item : String) :
    ∀ (i : Nat) (arr : List Record) (l : Nat), i ≤ l → l ≤ arr.length →
      (deleteItemAux item arr l i).1.length = arr.length ∧
      (deleteItemAux item arr l i).2 ≤ l := by
  intro i
  induction i with
  | zero => intro arr l _ _; exact ⟨rfl, le_rfl⟩
  | succ j ih =>
    intro arr l hij hl
    have hjl : j < l := Nat.lt_of_lt_of_le (Nat.lt_succ_self j) hij
    rw [deleteItemAux]
    by_cases hc : (arr.getD j { content := "" }).content = item
    · rw [if_pos hc]
      have hm1 : min (l - j) (j + 1) ≤ l - j := Nat.min_le_left _ _
      have hlen : (arr.take j ++ arr.take (min (l - j) (j + 1)) ++
          arr.drop (j + min (l - j) (j + 1))).length = arr.length := by
        simp only [List.length_append, List.length_take, List.length_drop]
        omega
      have hrec := ih (arr.take j ++ arr.take (min (l - j) (j + 1)) ++
          arr.drop (j + min (l - j) (j + 1))) (l - 1) (by omega) (by rw [hlen]; omega)
      refine ⟨?_, ?_⟩
      · rw [hrec.1, hlen]
      · exact Nat.le_trans hrec.2 (Nat.sub_le l 1)
    · rw [if_neg hc]
      exact ⟨(ih arr l (Nat.le_of_lt hjl) hl).1,
        (ih arr l (Nat.le_of_lt hjl) hl).2⟩

/-- The loop of `removeRecords` keeps the backing array's length, and its
final view length is bounded by the array's length. -/
theorem foldl_deleteItem_length :
    ∀ (culls : List LDRecord) (arr : List Record) (l : Nat), l ≤ arr.length →
      ((culls.foldl (fun st c => deleteItem c.value st.1 st.2) (arr, l)).1.length
          = arr.length ∧
       (culls.foldl (fun st c => deleteItem c.value st.1 st.2) (arr, l)).2
          ≤ arr.length) := by
  intro culls
  induction culls with
  | nil => intro arr l h; exact ⟨rfl, h⟩
  | cons c cs ih =>
    intro arr l h
    simp only [List.foldl_cons]
    have hd1 : (deleteItem c.value arr l).1.length = arr.length :=
      (deleteItemAux_length c.value l arr l le_rfl h).1
    have hd2 : (deleteItem c.value arr l).2 ≤ l :=
      (deleteItemAux_length c.value l arr l le_rfl h).2
    have hstep : (deleteItem c.value arr l).2 ≤ (deleteItem c.value arr l).1.length := by
      omega
    have hrest := ih (deleteItem c.value arr l).1 (deleteItem c.value arr l).2 hstep
    have hr1 : (List.foldl (fun st c => deleteItem c.value st.1 st.2)
        (deleteItem c.value arr l) cs).1.length = (deleteItem c.value arr l).1.length :=
      hrest.1
    have hr2 : (List.foldl (fun st c => deleteItem c.value st.1 st.2)
        (deleteItem c.value arr l) cs).2 ≤ (deleteItem c.value arr l).1.length :=
      hrest.2
    refine ⟨?_, ?_⟩
    · rw [hr1, hd1]
    · rw [hd1] at hr2
      exact hr2

/-- `removeRecords`' loop never changes the length of the shared backing
array. -/
theorem removeRecordsState_length (t : RRSet) (culls : List LDRecord) :
    (removeRecordsState t culls).1.length = t.records.length :=
  (foldl_deleteItem_length culls t.records t.records.length le_rfl).1

/-- What one record set's post-cull state preserves: all scalar fields, the
record-array length, and the whole set when its key has no bucket. -/
theorem cullSetAfter_preserves (h : LDHash) (t : RRSet) :
    (cullSetAfter h t).name = t.name ∧ (cullSetAfter h t).type = t.type ∧
    (cullSetAfter h t).ttl = t.ttl ∧ (cullSetAfter h t).changeType = t.changeType ∧
    (cullSetAfter h t).comments = t.comments ∧
    (cullSetAfter h t).records.length = t.records.length ∧
    (hashFind h (key t.name t.type) = none → cullSetAfter h t = t) := by
  unfold cullSetAfter
  cases hf : hashFind h (key t.name t.type) with
  | none => simp
  | some v =>
    cases v with
    | nil => simp
    | cons r0 rest =>
      refine ⟨rfl, rfl, rfl, rfl, rfl, removeRecordsState_length t (r0 :: rest), ?_⟩
      intro hcon
      cases hcon

/-- Inserting under a different key does not change a lookup. -/
theorem hashFind_insertAppend_of_ne (k k' : String) (r : LDRecord) (hne : k' ≠ k) :
    ∀ m : LDHash, hashFind (hashInsertAppend m k' r) k = hashFind m k := by
  intro m
  induction m with
  | nil => simp [hashInsertAppend, hashFind, hne]
  | cons kv rest ih =>
    obtain ⟨k2, v⟩ := kv
    by_cases h2 : k2 = k'
    · subst h2
      have h3 : ¬ k2 = k := fun h => hne (h ▸ rfl)
      simp [hashInsertAppend, hashFind, h3]
    · have hke : ¬ k = k' := fun hh => hne hh.symm
      by_cases h3 : k2 = k
      · simp [hashInsertAppend, hashFind, h2, h3, hke]
      · simp [hashInsertAppend, hashFind, h2, h3, ih]

/-- Grouping records none of which has key `k` leaves `k` absent. -/
theorem hashFind_foldl_insert_none (k : String) :
    ∀ (rs : List LDRecord) (m : LDHash), hashFind m k = none →
      (∀ r ∈ rs, key r.name r.type ≠ k) →
      hashFind (rs.foldl (fun h r => hashInsertAppend h (key r.name r.type) r) m) k
        = none := by
  intro rs
  induction rs with
  | nil => intro m hm _; exact hm
  | cons r rest ih =>
    intro m hm hk
    simp only [List.foldl_cons]
    apply ih
    · rw [hashFind_insertAppend_of_ne k (key r.name r.type) r (hk r (by simp))]
      exact hm
    · intro r' hr'
      exact hk r' (by simp [hr'])

/-- A key used by no record is absent from the grouping. -/
theorem hashFind_makeLDRecHash_none (rs : List LDRecord) (k : String)
    (h : ∀ r ∈ rs, key r.name r.type ≠ k) :
    hashFind (makeLDRecHash rs) k = none :=
  hashFind_foldl_insert_none k rs [] rfl h

/-- A record set whose key has no bucket contributes nothing to the merge
loop. -/
theorem mergeStep_skip (acc : List RRSet × LDHash) (t : RRSet)
    (h : hashFind acc.2 (key t.name t.type) = none) : mergeStep acc t = acc := by
  simp only [mergeStep, h]

/-- The merge loop is the identity when no record set's key has a bucket. -/
theorem foldl_mergeStep_skip :
    ∀ (sets : List RRSet) (acc : List RRSet × LDHash),
      (∀ t ∈ sets, hashFind acc.2 (key t.name t.type) = none) →
      sets.foldl mergeStep acc = acc := by
  intro sets
  induction sets with
  | nil => intro acc _; rfl
  | cons t rest ih =>
    intro acc h
    simp only [List.foldl_cons]
    rw [mergeStep_skip acc t (h t (by simp))]
    exact ih acc (fun t' ht' => h t' (by simp [ht']))

/-- The converter's loop body appends the bucket's contribution. -/
theorem convertStep_eq (acc : List RRSet) (kv : String × List LDRecord) :
    convertStep acc kv = acc ++ convGroup kv := by
  obtain ⟨k, v⟩ := kv
  cases v with
  | nil => simp [convertStep, convGroup]
  | cons r0 rest => rfl

/-- `convertHash` flattens the per-bucket contributions. -/
theorem convertHash_eq_flatten (h : LDHash) :
    convertHash h = (h.map convGroup).flatten := by
  unfold convertHash
  rw [List.foldl_ext convertStep (fun r kv => r ++ convGroup kv) []
    (fun a kv _ => convertStep_eq a kv)]
  rw [foldl_append_flatten]
  simp

/-- C6: when no desired group matches an existing record set, the merge
planner's output is exactly the converter's output on the grouped records:
one REPLACE descriptor per non-empty group, with name, type and TTL from
the group's first record, empty comments, and the group's values in order
with no cross-record deduplication. -/
theorem mergeRRecs_no_match (z : Zone) (records : List LDRecord)
    (hnm : ∀ t ∈ z.resourceRecordSets, ∀ r ∈ records,
      key r.name r.type ≠ key t.name t.type) :
    mergeRRecs z records = convertHash (makeLDRecHash records) ∧
    ∀ rr ∈ mergeRRecs z records, ∃ kv ∈ makeLDRecHash records, ∃ r0 restRecs,
      kv.2 = r0 :: restRecs ∧
      rr = { name := r0.name, type := r0.type, ttl := durSeconds r0.ttl,
             changeType := ChangeTypeReplace, comments := [],
             records := kv.2.map (fun rec => { content := rec.value }) } := by
  have heq : mergeRRecs z records = convertHash (makeLDRecHash records) := by
    have hfold := foldl_mergeStep_skip z.resourceRecordSets ([], makeLDRecHash records)
      (fun t ht => hashFind_makeLDRecHash_none records (key t.name t.type)
        (fun r hr => hnm t ht r hr))
    show (List.foldl mergeStep ([], makeLDRecHash records) z.resourceRecordSets).1 ++
        convertHash (List.foldl mergeStep ([], makeLDRecHash records)
          z.resourceRecordSets).2 =
      convertHash (makeLDRecHash records)
    rw [hfold]
    simp
  refine ⟨heq, ?_⟩
  intro rr hrr
  rw [heq, convertHash_eq_flatten, List.mem_flatten] at hrr
  obtain ⟨l, hl, hrl⟩ := hrr
  rw [List.mem_map] at hl
  obtain ⟨kv, hkv, rfl⟩ := hl
  obtain ⟨k, v⟩ := kv
  cases v with
  | nil => cases hrl
  | cons r0 restv =>
    simp only [convGroup, List.mem_singleton] at hrl
    exact ⟨(k, r0 :: restv), hkv, r0, restv, rfl, hrl⟩

/-- Witness for C6 at spec §8 Example 5 against Example 1's snapshot. -/
theorem mergeRRecs_no_match_witness :
    mergeRRecs exZone1 exRecs6 = convertHash (makeLDRecHash exRecs6) ∧
    ∀ rr ∈ mergeRRecs exZone1 exRecs6, ∃ kv ∈ makeLDRecHash exRecs6, ∃ r0 restRecs,
      kv.2 = r0 :: restRecs ∧
      rr = { name := r0.name, type := r0.type, ttl := durSeconds r0.ttl,
             changeType := ChangeTypeReplace, comments := [],
             records := kv.2.map (fun rec => { content := rec.value }) } :=
  mergeRRecs_no_match exZone1 exRecs6 (by decide)

/-- A successful lookup returns an entry of the hash. -/
theorem hashFind_mem : ∀ (m : LDHash) (k : String) (v : List LDRecord),
    hashFind m k = some v → (k, v) ∈ m := by
  intro m
  induction m with
  | nil => intro k v h; cases h
  | cons kv rest ih =>
    intro k v h
    obtain ⟨k2, v2⟩ := kv
    by_cases h2 : k2 = k
    · subst h2
      simp [hashFind] at h
      subst h
      simp
    · simp only [hashFind, if_neg h2] at h
      exact List.mem_cons_of_mem _ (ih k v h)

/-- Erasing a key yields a sublist of the hash. -/
theorem hashErase_sublist : ∀ (m : LDHash) (k : String), (hashErase m k).Sublist m := by
  intro m k
  induction m with
  | nil => simp [hashErase]
  | cons kv rest ih =>
    obtain ⟨k2, v⟩ := kv
    by_cases h2 : k2 = k
    · simp only [hashErase, if_pos h2]
      exact ih.trans (List.sublist_cons_self _ _)
    · simp only [hashErase, if_neg h2]
      exact List.Sublist.cons₂ _ ih

/-- Erasing an absent key is the identity. -/
theorem hashErase_of_not_mem : ∀ (m : LDHash) (k : String),
    k ∉ hashKeys m → hashErase m k = m := by
  intro m k
  induction m with
  | nil => intro _; rfl
  | cons kv rest ih =>
    intro h
    obtain ⟨k2, v⟩ := kv
    simp only [hashKeys, List.map_cons, List.mem_cons] at h
    push_neg at h
    simp only [hashErase, if_neg (fun hh : k2 = k => h.1 hh.symm)]
    rw [ih (by intro hc; exact h.2 hc)]

/-- For a hash with distinct keys, erasing a present key removes exactly
that key. -/
theorem hashKeys_erase_perm : ∀ (m : LDHash) (k : String) (v : List LDRecord),
    (hashKeys m).Nodup → hashFind m k = some v →
    (hashKeys m).Perm (k :: hashKeys (hashErase m k)) := by
  intro m
  induction m with
  | nil => intro k v _ h; cases h
  | cons kv rest ih =>
    intro k v hnd hf
    obtain ⟨k2, v2⟩ := kv
    simp only [hashKeys, List.map_cons, List.nodup_cons] at hnd
    by_cases h2 : k2 = k
    · subst h2
      simp only [hashErase, if_pos rfl]
      rw [hashErase_of_not_mem rest k2 hnd.1]
      exact List.Perm.refl _
    · simp only [hashFind, if_neg h2] at hf
      simp only [hashErase, if_neg h2, hashKeys, List.map_cons]
      exact (List.Perm.cons k2 (ih k v hnd.2 hf)).trans (List.Perm.swap k k2 _)

/-- Each entry of the hash after an insertion is an old entry, the extended
bucket at the inserted key, or a fresh singleton bucket. -/
theorem mem_insertAppend : ∀ (m : LDHash) (k : String) (r : LDRecord)
    (kv' : String × List LDRecord), kv' ∈ hashInsertAppend m k r →
    kv' ∈ m ∨ (∃ v, (k, v) ∈ m ∧ kv' = (k, v ++ [r])) ∨ kv' = (k, [r]) := by
  intro m k r
  induction m with
  | nil =>
    intro kv' h
    simp only [hashInsertAppend, List.mem_singleton] at h
    exact Or.inr (Or.inr h)
  | cons kv rest ih =>
    intro kv' h
    obtain ⟨k2, v2⟩ := kv
    by_cases h2 : k2 = k
    · subst h2
      rw [hashInsertAppend, if_pos rfl, List.mem_cons] at h
      rcases h with h | h
      · exact Or.inr (Or.inl ⟨v2, by simp, h⟩)
      · exact Or.inl (List.mem_cons_of_mem _ h)
    · simp only [hashInsertAppend, if_neg h2, List.mem_cons] at h
      rcases h with h | h
      · exact Or.inl (by simp [h])
      · rcases ih kv' h with h3 | h3 | h3
        · exact Or.inl (List.mem_cons_of_mem _ h3)
        · obtain ⟨v, hv, he⟩ := h3
          exact Or.inr (Or.inl ⟨v, List.mem_cons_of_mem _ hv, he⟩)
        · exact Or.inr (Or.inr h3)

/-- Inserting at an already-present key leaves the key list unchanged. -/
theorem hashKeys_insertAppend_mem : ∀ (m : LDHash) (k : String) (r : LDRecord),
    k ∈ hashKeys m → hashKeys (hashInsertAppend m k r) = hashKeys m := by
  intro m k r
  induction m with
  | nil => intro h; cases h
  | cons kv rest ih =>
    intro h
    obtain ⟨k2, v2⟩ := kv
    by_cases h2 : k2 = k
    · subst h2
      simp [hashInsertAppend, hashKeys]
    · simp only [hashKeys, List.map_cons, List.mem_cons] at h
      rcases h with h | h
      · exact absurd h.symm h2
      · simp only [hashInsertAppend, if_neg h2, hashKeys, List.map_cons]
        rw [show List.map Prod.fst (hashInsertAppend rest k r) =
          hashKeys (hashInsertAppend rest k r) from rfl, ih h]
        rfl

/-- Inserting at an absent key appends it to the key list. -/
theorem hashKeys_insertAppend_not_mem : ∀ (m : LDHash) (k : String) (r : LDRecord),
    k ∉ hashKeys m → hashKeys (hashInsertAppend m k r) = hashKeys m ++ [k] := by
  intro m k r
  induction m with
  | nil => intro _; rfl
  | cons kv rest ih =>
    intro h
    obtain ⟨k2, v2⟩ := kv
    simp only [hashKeys, List.map_cons, List.mem_cons] at h
    push_neg at h
    simp only [hashInsertAppend, if_neg (fun hh : k2 = k => h.1 hh.symm),
      hashKeys, List.map_cons]
    rw [show List.map Prod.fst (hashInsertAppend rest k r) =
      hashKeys (hashInsertAppend rest k r) from rfl, ih h.2]
    rfl

/-- Insertion preserves distinctness of the keys. -/
theorem nodup_hashKeys_insertAppend (m : LDHash) (k : String) (r : LDRecord)
    (h : (hashKeys m).Nodup) : (hashKeys (hashInsertAppend m k r)).Nodup := by
  by_cases hk : k ∈ hashKeys m
  · rw [hashKeys_insertAppend_mem m k r hk]
    exact h
  · rw [hashKeys_insertAppend_not_mem m k r hk]
    simp [List.nodup_append, h, hk]

/-- The grouping has distinct keys, non-empty buckets, and every record sits
in the bucket of its own key. -/
theorem makeLDRecHash_invariants (rs : List LDRecord) :
    (hashKeys (makeLDRecHash rs)).Nodup ∧
    (∀ kv ∈ makeLDRecHash rs, kv.2 ≠ []) ∧
    (∀ kv ∈ makeLDRecHash rs, ∀ r ∈ kv.2, key r.name r.type = kv.1) := by
  suffices h : ∀ (l : List LDRecord) (m : LDHash),
      (hashKeys m).Nodup → (∀ kv ∈ m, kv.2 ≠ []) →
      (∀ kv ∈ m, ∀ r ∈ kv.2, key r.name r.type = kv.1) →
      ((hashKeys (l.foldl (fun h r => hashInsertAppend h (key r.name r.type) r) m)).Nodup ∧
       (∀ kv ∈ l.foldl (fun h r => hashInsertAppend h (key r.name r.type) r) m,
          kv.2 ≠ []) ∧
       (∀ kv ∈ l.foldl (fun h r => hashInsertAppend h (key r.name r.type) r) m,
          ∀ r ∈ kv.2, key r.name r.type = kv.1)) by
    exact h rs [] (by simp [hashKeys]) (by simp) (by simp)
  intro l
  induction l with
  | nil => intro m h1 h2 h3; exact ⟨h1, h2, h3⟩
  | cons r rest ih =>
    intro m h1 h2 h3
    simp only [List.foldl_cons]
    apply ih
    · exact nodup_hashKeys_insertAppend m _ r h1
    · intro kv hkv
      rcases mem_insertAppend m _ r kv hkv with h | h | h
      · exact h2 kv h
      · obtain ⟨v, _, he⟩ := h
        subst he
        simp
      · subst h
        simp
    · intro kv hkv r' hr'
      rcases mem_insertAppend m _ r kv hkv with h | h | h
      · exact h3 kv h r' hr'
      · obtain ⟨v, hv, he⟩ := h
        subst he
        simp only [List.mem_append, List.mem_singleton] at hr'
        rcases hr' with h4 | h4
        · exact h3 (key r.name r.type, v) hv r' h4
        · subst h4
          rfl
      · subst h
        simp only [List.mem_singleton] at hr'
        subst hr'
        rfl

/-- The merge loop body splits off the accumulated descriptors. -/
theorem mergeStep_acc (p : List RRSet × LDHash) (t : RRSet) :
    mergeStep p t = (p.1 ++ (mergeStep ([], p.2) t).1, (mergeStep ([], p.2) t).2) := by
  simp only [mergeStep]
  cases hf : hashFind p.2 (key t.name t.type) with
  | none => simp
  | some v =>
    cases v with
    | nil => simp
    | cons r0 rv => simp

/-- The merge loop splits off its initial accumulator. -/
theorem foldl_mergeStep_acc : ∀ (sets : List RRSet) (p : List RRSet × LDHash),
    sets.foldl mergeStep p =
      (p.1 ++ (sets.foldl mergeStep ([], p.2)).1,
       (sets.foldl mergeStep ([], p.2)).2) := by
  intro sets
  induction sets with
  | nil => intro p; simp
  | cons t rest ih =>
    intro p
    simp only [List.foldl_cons]
    rw [mergeStep_acc p t, ih, ih (mergeStep ([], p.2) t)]
    simp [List.append_assoc]

/-- A matched record set contributes one descriptor carrying its name and
type, and drains its key from the hash. -/
theorem mergeStep_match (p : List RRSet × LDHash) (t : RRSet) (r0 : LDRecord)
    (rv : List LDRecord)
    (hf : hashFind p.2 (key t.name t.type) = some (r0 :: rv)) :
    ∃ rr : RRSet, rr.name = t.name ∧ rr.type = t.type ∧
      mergeStep p t = (p.1 ++ [rr], hashErase p.2 (key t.name t.type)) := by
  simp only [mergeStep, hf]
  refine ⟨_, ?_, ?_, rfl⟩
  · rfl
  · rfl

/-- Non-empty, self-keyed buckets convert to descriptors whose keys are
exactly the hash's keys. -/
theorem convertHash_keys : ∀ (h : LDHash),
    (∀ kv ∈ h, kv.2 ≠ []) → (∀ kv ∈ h, ∀ r ∈ kv.2, key r.name r.type = kv.1) →
    (convertHash h).map skey = hashKeys h := by
  intro h
  induction h with
  | nil => intro _ _; rfl
  | cons kv rest ih =>
    intro h2 h3
    rw [convertHash_eq_flatten, List.map_cons, List.flatten_cons, List.map_append,
      ← convertHash_eq_flatten,
      ih (fun kv' h' => h2 kv' (List.mem_cons_of_mem _ h'))
        (fun kv' h' => h3 kv' (List.mem_cons_of_mem _ h'))]
    obtain ⟨k, v⟩ := kv
    cases v with
    | nil => exact absurd rfl (h2 (k, []) (by simp))
    | cons r0 rv =>
      have hk : key r0.name r0.type = k := h3 (k, r0 :: rv) (by simp) r0 (by simp)
      simp [convGroup, skey, hashKeys, hk]

/-- The merge loop: descriptor keys plus leftover hash keys are a
permutation of the initial hash keys, descriptor keys follow snapshot
order, and the leftover hash keeps the grouping invariants. -/
theorem mergeLoop_spec : ∀ (sets : List RRSet) (h : LDHash),
    (hashKeys h).Nodup → (∀ kv ∈ h, kv.2 ≠ []) →
    (∀ kv ∈ h, ∀ r ∈ kv.2, key r.name r.type = kv.1) →
    ((((sets.foldl mergeStep ([], h)).1.map skey) ++
        hashKeys (sets.foldl mergeStep ([], h)).2).Perm (hashKeys h) ∧
     ((sets.foldl mergeStep ([], h)).1.map skey).Sublist (sets.map skey) ∧
     (hashKeys (sets.foldl mergeStep ([], h)).2).Nodup ∧
     (∀ kv ∈ (sets.foldl mergeStep ([], h)).2, kv.2 ≠ []) ∧
     (∀ kv ∈ (sets.foldl mergeStep ([], h)).2, ∀ r ∈ kv.2,
        key r.name r.type = kv.1)) := by
  intro sets
  induction sets with
  | nil =>
    intro h h1 h2 h3
    exact ⟨by simp, by simp, h1, h2, h3⟩
  | cons t rest ih =>
    intro h h1 h2 h3
    simp only [List.foldl_cons]
    cases hf : hashFind h (key t.name t.type) with
    | none =>
      rw [mergeStep_skip ([], h) t hf]
      obtain ⟨p1, p2, p3, p4, p5⟩ := ih h h1 h2 h3
      refine ⟨p1, ?_, p3, p4, p5⟩
      simp only [List.map_cons]
      exact p2.trans (List.sublist_cons_self _ _)
    | some v =>
      cases v with
      | nil =>
        exact absurd rfl (h2 (key t.name t.type, []) (hashFind_mem h _ [] hf))
      | cons r0 rv =>
        obtain ⟨rr, hname, htype, hstep⟩ := mergeStep_match ([], h) t r0 rv hf
        rw [hstep, List.nil_append,
          foldl_mergeStep_acc rest ([rr], hashErase h (key t.name t.type))]
        have hsub := hashErase_sublist h (key t.name t.type)
        have h1' : (hashKeys (hashErase h (key t.name t.type))).Nodup :=
          (hsub.map Prod.fst).nodup h1
        have h2' : ∀ kv ∈ hashErase h (key t.name t.type), kv.2 ≠ [] :=
          fun kv hkv => h2 kv (hsub.subset hkv)
        have h3' : ∀ kv ∈ hashErase h (key t.name t.type), ∀ r ∈ kv.2,
            key r.name r.type = kv.1 :=
          fun kv hkv => h3 kv (hsub.subset hkv)
        obtain ⟨q1, q2, q3, q4, q5⟩ := ih (hashErase h (key t.name t.type)) h1' h2' h3'
        have hrrkey : skey rr = key t.name t.type := by
          simp [skey, hname, htype]
        refine ⟨?_, ?_, q3, q4, q5⟩
        · simp only [List.singleton_append, List.map_cons, List.cons_append, hrrkey]
          exact (List.Perm.cons _ q1).trans
            (hashKeys_erase_perm h (key t.name t.type) (r0 :: rv) h1 hf).symm
        · simp only [List.singleton_append, List.map_cons, hrrkey]
          exact List.Sublist.cons₂ _ q2

/-- C7: `mergeRRecs` emits exactly one descriptor per non-empty desired
group — the output splits into the matched-group descriptors (their keys a
sublist of the snapshot's key order) followed by the converter's
descriptors for the leftover groups, the multiset of emitted keys is
exactly the distinct group keys, and no key appears on both sides. -/
theorem mergeRRecs_emits_each_group_once (z : Zone) (records : List LDRecord) :
    ∃ matched rest,
      mergeRRecs z records = matched ++ convertHash rest ∧
      ((matched.map skey) ++ ((convertHash rest).map skey)).Perm
        (hashKeys (makeLDRecHash records)) ∧
      (hashKeys (makeLDRecHash records)).Nodup ∧
      (∀ kv ∈ makeLDRecHash records, kv.2 ≠ []) ∧
      (matched.map skey).Sublist (z.resourceRecordSets.map skey) ∧
      ∀ k ∈ matched.map skey, k ∉ (convertHash rest).map skey := by
  obtain ⟨h1, h2, h3⟩ := makeLDRecHash_invariants records
  obtain ⟨p1, p2, p3, p4, p5⟩ :=
    mergeLoop_spec z.resourceRecordSets (makeLDRecHash records) h1 h2 h3
  refine ⟨(z.resourceRecordSets.foldl mergeStep ([], makeLDRecHash records)).1,
    (z.resourceRecordSets.foldl mergeStep ([], makeLDRecHash records)).2,
    rfl, ?_, h1, h2, p2, ?_⟩
  · rw [convertHash_keys _ p4 p5]
    exact p1
  · intro k hk hk2
    have hperm :
        (((z.resourceRecordSets.foldl mergeStep ([], makeLDRecHash records)).1.map skey) ++
          ((convertHash (z.resourceRecordSets.foldl mergeStep
            ([], makeLDRecHash records)).2).map skey)).Perm
          (hashKeys (makeLDRecHash records)) := by
      rw [convertHash_keys _ p4 p5]
      exact p1
    have hnd := hperm.nodup_iff.2 h1
    rw [List.nodup_append] at hnd
    exact hnd.2.2 hk hk2

/-- Concatenations around a separator occurring in neither left part agree
exactly when the parts agree. -/
theorem append_sep_inj (c : Char) :
    ∀ (l1 l2 r1 r2 : List Char), c ∉ l1 → c ∉ l2 →
      (l1 ++ c :: r1 = l2 ++ c :: r2 ↔ l1 = l2 ∧ r1 = r2) := by
  intro l1
  induction l1 with
  | nil =>
    intro l2 r1 r2 _ hc2
    cases l2 with
    | nil => simp
    | cons x xs =>
      simp only [List.nil_append, List.cons_append, List.cons.injEq]
      constructor
      · rintro ⟨hcx, _⟩
        exact absurd (by rw [hcx]; exact List.mem_cons_self x xs) hc2
      · rintro ⟨h, _⟩
        cases h
  | cons a as ih =>
    intro l2 r1 r2 hc1 hc2
    cases l2 with
    | nil =>
      simp only [List.cons_append, List.nil_append, List.cons.injEq]
      constructor
      · rintro ⟨hac, _⟩
        exact absurd (by rw [← hac]; exact List.mem_cons_self a as) hc1
      · rintro ⟨h, _⟩
        cases h
    | cons x xs =>
      simp only [List.cons_append, List.cons.injEq]
      rw [ih xs r1 r2 (fun hm => hc1 (List.mem_cons_of_mem _ hm))
        (fun hm => hc2 (List.mem_cons_of_mem _ hm))]
      constructor
      · rintro ⟨h1, h2, h3⟩
        exact ⟨⟨h1, h2⟩, h3⟩
      · rintro ⟨⟨h1, h2⟩, h3⟩
        exact ⟨h1, h2, h3⟩

/-- For names free of the separator, `key` is injective componentwise. -/
theorem key_inj_of_no_colon (n1 t1 n2 t2 : String)
    (h1 : (':' : Char) ∉ n1.data) (h2 : (':' : Char) ∉ n2.data) :
    key n1 t1 = key n2 t2 ↔ (n1 = n2 ∧ t1 = t2) := by
  unfold key
  rw [String.ext_iff, String.data_append, String.data_append,
    String.data_append, String.data_append]
  rw [show (":" : String).data = [':'] from rfl]
  rw [List.append_assoc, List.append_assoc, List.singleton_append,
    List.singleton_append]
  rw [append_sep_inj ':' n1.data n2.data t1.data t2.data h1 h2]
  constructor
  · rintro ⟨ha, hb⟩
    exact ⟨String.ext ha, String.ext hb⟩
  · rintro ⟨rfl, rfl⟩
    exact ⟨rfl, rfl⟩

/-- Looking up the key just inserted finds its extended bucket. -/
theorem hashFind_insertAppend_self : ∀ (m : LDHash) (k : String) (r : LDRecord),
    hashFind (hashInsertAppend m k r) k = some ((hashFind m k).getD [] ++ [r]) := by
  intro m k r
  induction m with
  | nil => simp [hashInsertAppend, hashFind]
  | cons kv rest ih =>
    obtain ⟨k2, v2⟩ := kv
    by_cases h2 : k2 = k
    · subst h2
      simp [hashInsertAppend, hashFind]
    · simp [hashInsertAppend, h2, hashFind, ih]

/-- An insertion never removes a record from the bucket it is in. -/
theorem bucket_mono (m : LDHash) (k k' : String) (x r : LDRecord)
    (h : ∃ v, hashFind m k = some v ∧ r ∈ v) :
    ∃ v, hashFind (hashInsertAppend m k' x) k = some v ∧ r ∈ v := by
  obtain ⟨v, hv, hr⟩ := h
  by_cases hk : k' = k
  · subst hk
    refine ⟨(hashFind m k').getD [] ++ [x], hashFind_insertAppend_self m k' x, ?_⟩
    rw [hv, Option.getD_some]
    exact List.mem_append_left _ hr
  · exact ⟨v, by rw [hashFind_insertAppend_of_ne k k' x hk]; exact hv, hr⟩

/-- Grouping more records never removes a record from its bucket. -/
theorem bucket_foldl_mono : ∀ (l : List LDRecord) (m : LDHash) (k : String)
    (r : LDRecord), (∃ v, hashFind m k = some v ∧ r ∈ v) →
    ∃ v, hashFind (l.foldl (fun h x => hashInsertAppend h (key x.name x.type) x) m) k
        = some v ∧ r ∈ v := by
  intro l
  induction l with
  | nil => intro m k r h; exact h
  | cons x xs ih =>
    intro m k r h
    simp only [List.foldl_cons]
    exact ih _ k r (bucket_mono m k _ x r h)

/-- Every grouped record is found in the bucket of its own key. -/
theorem mem_own_bucket : ∀ (rs : List LDRecord) (r : LDRecord), r ∈ rs →
    ∃ v, hashFind (makeLDRecHash rs) (key r.name r.type) = some v ∧ r ∈ v := by
  suffices h : ∀ (l : List LDRecord) (m : LDHash) (r : LDRecord), r ∈ l →
      ∃ v, hashFind (l.foldl (fun h x => hashInsertAppend h (key x.name x.type) x) m)
        (key r.name r.type) = some v ∧ r ∈ v by
    intro rs r hr
    exact h rs [] r hr
  intro l
  induction l with
  | nil => intro m r h; cases h
  | cons x xs ih =>
    intro m r h
    simp only [List.foldl_cons]
    rcases List.mem_cons.mp h with h | h
    · subst h
      apply bucket_foldl_mono xs
      exact ⟨(hashFind m (key r.name r.type)).getD [] ++ [r],
        hashFind_insertAppend_self m _ r, by simp⟩
    · exact ih _ r h

/-- C8 (amended): for name/type pairs whose names are free of the `:`
separator, `key` equality holds iff both components agree, and two grouped
records land in the same bucket of `makeLDRecHash` iff they agree on both
name and type. -/
theorem key_identifies_records (n1 t1 n2 t2 : String)
    (h1 : (':' : Char) ∉ n1.data) (h2 : (':' : Char) ∉ n2.data) :
    (key n1 t1 = key n2 t2 ↔ (n1 = n2 ∧ t1 = t2)) ∧
    ∀ (rs : List LDRecord) (r1 r2 : LDRecord), r1 ∈ rs → r2 ∈ rs →
      r1.name = n1 → r1.type = t1 → r2.name = n2 → r2.type = t2 →
      (sameBucket (makeLDRecHash rs) r1 r2 ↔
        (r1.name = r2.name ∧ r1.type = r2.type)) := by
  refine ⟨key_inj_of_no_colon n1 t1 n2 t2 h1 h2, ?_⟩
  intro rs r1 r2 hm1 hm2 e1 e2 e3 e4
  subst e1
  subst e2
  subst e3
  subst e4
  constructor
  · rintro ⟨kv, hkv, hr1, hr2⟩
    have hI3 := (makeLDRecHash_invariants rs).2.2
    have hk1 : key r1.name r1.type = kv.1 := hI3 kv hkv r1 hr1
    have hk2 : key r2.name r2.type = kv.1 := hI3 kv hkv r2 hr2
    exact (key_inj_of_no_colon r1.name r1.type r2.name r2.type h1 h2).mp
      (hk1.trans hk2.symm)
  · rintro ⟨hn, ht⟩
    obtain ⟨v, hfind, hrv⟩ := mem_own_bucket rs r1 hm1
    obtain ⟨v2, hfind2, hr2v⟩ := mem_own_bucket rs r2 hm2
    rw [← hn, ← ht] at hfind2
    rw [hfind] at hfind2
    cases hfind2
    exact ⟨(key r1.name r1.type, v), hashFind_mem _ _ _ hfind, hrv, hr2v⟩

/-- Witness for C8's amended claim at colon-free names. -/
theorem key_identifies_records_witness :
    (key "www" "A" = key "www" "A" ↔
      (("www" : String) = "www" ∧ ("A" : String) = "A")) ∧
    ∀ (rs : List LDRecord) (r1 r2 : LDRecord), r1 ∈ rs → r2 ∈ rs →
      r1.name = "www" → r1.type = "A" → r2.name = "www" → r2.type = "A" →
      (sameBucket (makeLDRecHash rs) r1 r2 ↔
        (r1.name = r2.name ∧ r1.type = r2.type)) :=
  key_identifies_records "www" "A" "www" "A" (by decide) (by decide)

/-- C4 (amended): after planning, every snapshot record set keeps its name,
type, TTL, comments, change type and record-array length, and a record set
whose key has no removal bucket is entirely unchanged; the zone id is
unchanged. (The cull planner can still rewrite the array contents of
matched sets in place — see the counterexample.) -/
theorem cullZoneAfter_preserves_structure (z : Zone) (rs : List LDRecord) :
    (cullZoneAfter z rs).id = z.id ∧
    List.Forall₂
      (fun t t' =>
        t'.name = t.name ∧ t'.type = t.type ∧ t'.ttl = t.ttl ∧
        t'.changeType = t.changeType ∧ t'.comments = t.comments ∧
        t'.records.length = t.records.length ∧
        (hashFind (makeLDRecHash rs) (key t.name t.type) = none → t' = t))
      z.resourceRecordSets (cullZoneAfter z rs).resourceRecordSets := by
  refine ⟨rfl, ?_⟩
  show List.Forall₂ _ z.resourceRecordSets
      (z.resourceRecordSets.map (cullSetAfter (makeLDRecHash rs)))
  rw [List.forall₂_map_right_iff, List.forall₂_same]
  intro t _
  exact cullSetAfter_preserves (makeLDRecHash rs) t

/-- Witness for C4's amended claim, at the counterexample's own input. -/
theorem cullZoneAfter_preserves_structure_witness :
    (cullZoneAfter exZone4 exCullB).id = exZone4.id ∧
    List.Forall₂
      (fun t t' =>
        t'.name = t.name ∧ t'.type = t.type ∧ t'.ttl = t.ttl ∧
        t'.changeType = t.changeType ∧ t'.comments = t.comments ∧
        t'.records.length = t.records.length ∧
        (hashFind (makeLDRecHash exCullB) (key t.name t.type) = none → t' = t))
      exZone4.resourceRecordSets (cullZoneAfter exZone4 exCullB).resourceRecordSets :=
  cullZoneAfter_preserves_structure exZone4 exCullB

/-- C10: every record returned by `GetRecords` carries the zone's snapshot
ID, Priority 0, and the record set's TTL converted from seconds to a
duration; its name/type/value come from the record set and one of its
values. -/
theorem getRecords_fields (z : Zone) (r : LDRecord) (hr : r ∈ getRecords z) :
    r.id = z.id ∧ r.priority = 0 ∧
    ∃ t ∈ z.resourceRecordSets, ∃ v ∈ t.records,
      r = { id := z.id, type := t.type, name := t.name, value := v.content,
            ttl := secondsToDuration t.ttl, priority := 0 } := by
  rw [getRecords_eq_flatten, List.mem_flatten] at hr
  obtain ⟨l, hl, hrl⟩ := hr
  rw [List.mem_map] at hl
  obtain ⟨t, ht, rfl⟩ := hl
  rw [List.mem_map] at hrl
  obtain ⟨v, hv, rfl⟩ := hrl
  exact ⟨rfl, rfl, t, ht, v, hv, rfl⟩

/-- Witness for C10 at spec §8 Example 1's snapshot. -/
theorem getRecords_fields_witness :
    (⟨"zid1", "A", "www", "1.1.1.1", 300000000000, 0⟩ : LDRecord).id = exZone1.id ∧
    (⟨"zid1", "A", "www", "1.1.1.1", 300000000000, 0⟩ : LDRecord).priority = 0 ∧
    ∃ t ∈ exZone1.resourceRecordSets, ∃ v ∈ t.records,
      (⟨"zid1", "A", "www", "1.1.1.1", 300000000000, 0⟩ : LDRecord) =
        { id := exZone1.id, type := t.type, name := t.name, value := v.content,
          ttl := secondsToDuration t.ttl, priority := 0 } :=
  getRecords_fields exZone1 ⟨"zid1", "A", "www", "1.1.1.1", 300000000000, 0⟩ (by decide)

/-- C1 (code bug): on spec §8 Example 1, `mergeRRecs` emits a REPLACE
descriptor whose value list is `["2.2.2.2"]` — the existing value
`"1.1.1.1"` is dropped, because `rr.Records` is allocated with
`len(rr.Records)` (zero) instead of `len(t.Records)`, so the copy of the
existing values copies nothing. On Example 2 (a duplicate value) the
emitted value list is even empty, shorter than the existing set. -/
theorem mergeRRecs_replace_loses_existing_values :
    mergeRRecs exZone1 exRecs1 =
      [{ name := "www", type := "A", ttl := 300, changeType := ChangeTypeReplace,
         comments := [], records := [{ content := "2.2.2.2" }] }] ∧
    mergeRRecs exZone1 exRecsDup =
      [{ name := "www", type := "A", ttl := 300, changeType := ChangeTypeReplace,
         comments := [], records := [] }] := by
  decide

/-- C2 (code bug): on spec §8 Example 4, `cullRRecs` emits a REPLACE
descriptor whose value list is empty instead of the surviving values
(`rRec.Records` is never assigned), so the claimed value list `["b"]` is
not produced. -/
theorem cullRRecs_replace_has_empty_records :
    cullRRecs exZone4 exCullA =
      [{ name := "mail", type := "MX", ttl := 3600, changeType := ChangeTypeReplace,
         comments := ["note"], records := [] }] := by
  decide

/-- C3 (code bug): removing `"a"` from the value list `["x","a","y"]` via
`removeRecords` yields `["x","x"]` — the slip `copy(recs[i:], recs[:i+1])`
(instead of `copy(recs[i:], recs[i+1:])`) duplicates the prefix rather than
shifting the suffix, so `"y"` is lost and order is not preserved. -/
theorem removeRecords_misdeletes :
    removeRecords exSet3 exCulls3 =
      { name := "t", type := "TXT", ttl := 60, changeType := "", comments := [],
        records := [{ content := "x" }, { content := "x" }] } := by
  decide

/-- C5 (code bug): the merge planner is not idempotent on the code. On
Example 1, the first run emits values `["2.2.2.2"]`; applying that and
running again with the same desired records emits an empty value list,
because the (buggy) merge drops existing values and the duplicate check
suppresses the re-addition. -/
theorem mergeRRecs_second_run_differs :
    mergeRRecs (applyDescriptors exZone1 (mergeRRecs exZone1 exRecs1)) exRecs1 =
      [{ name := "www", type := "A", ttl := 300, changeType := ChangeTypeReplace,
         comments := [], records := [] }] ∧
    mergeRRecs exZone1 exRecs1 ≠
      mergeRRecs (applyDescriptors exZone1 (mergeRRecs exZone1 exRecs1)) exRecs1 := by
  decide

/-- C4 (counterexample): culling value `"b"` from the snapshot whose record
set holds `["a","b"]` rewrites the set's shared backing array to
`["a","a"]` — the snapshot is not left unchanged by planning. -/
theorem cullRRecs_mutates_shared_arrays :
    cullZoneAfter exZone4 exCullB ≠ exZone4 ∧
    cullZoneAfter exZone4 exCullB =
      ⟨"zid4", [⟨"mail", "MX", 3600, "", ["note"], [⟨"a"⟩, ⟨"a"⟩]⟩]⟩ := by
  decide

/-- C8 (counterexample): the grouping key is not injective in general —
`key "a" "b:c"` and `key "a:b" "c"` are the same string `"a:b:c"` although
the name/type pairs differ, and the corresponding two records are grouped
into the same bucket despite different names. -/
theorem key_collision :
    key "a" "b:c" = key "a:b" "c" ∧
    ¬ (("a" : String) = "a:b" ∧ ("b:c" : String) = "c") ∧
    sameBucket (makeLDRecHash [⟨"", "b:c", "a", "v1", 0, 0⟩, ⟨"", "c", "a:b", "v2", 0, 0⟩])
      ⟨"", "b:c", "a", "v1", 0, 0⟩ ⟨"", "c", "a:b", "v2", 0, 0⟩ ∧
    (⟨"", "b:c", "a", "v1", 0, 0⟩ : LDRecord).name ≠
      (⟨"", "c", "a:b", "v2", 0, 0⟩ : LDRecord).name := by
  decide

/-- C9: `shortZone` fails with the not-found error exactly when the zone
listing holds zero or more than one zone, and returns the unique zone when
exactly one matches. -/
theorem shortZone_notFound_iff :
    ∀ l : List Zone,
      (shortZone l = Except.error "zone not found" ↔ (l.length = 0 ∨ 1 < l.length)) ∧
      (∀ z : Zone, shortZone [z] = Except.ok z) := by
  intro l
  refine ⟨?_, fun z => rfl⟩
  match l with
  | [] => simp [shortZone]
  | [z] => simp [shortZone]
  | z1 :: z2 :: rest =>
    simp [shortZone]

end PdnsLibdns
